import Mathlib

set_option maxRecDepth 8000

/-
Verification of the core of Mapa-Vet-CR (src/routes/main.py): the
canonicalizer `_norm`, the geometry/totals reconciliation performed by the
pandas left merge in the `mapa` route, and the colour-scale classifier
(min/max, bin boundaries, colormap endpoints).

Strings are modelled as lists of characters.  The character-level pipeline of
`_norm` (strip / upper / NFKD + ascii-ignore) is embedded for the ASCII range
together with the accented Latin-1 letters that occur in the data
(a/e/i/o/u with acute, u with diaeresis, n with tilde, and their uppercase
forms); every other code point is left fixed by `upper` and dropped by the
ascii-ignore step, exactly as CPython does for code points with no ASCII
compatibility decomposition.
-/

/-- Python `str.strip()` whitespace test on the ASCII range: tab through
carriage return (9 to 13), the separator controls 28 to 31, and space. -/
def pyIsSpace (c : Char) : Bool :=
  (9 ≤ c.toNat && c.toNat ≤ 13) || (28 ≤ c.toNat && c.toNat ≤ 31) || c.toNat == 32

/-- Uppercase table for the accented letters of the modelled alphabet. -/
def accentUpper : List (Char × Char) :=
  [('á', 'Á'), ('é', 'É'), ('í', 'Í'), ('ó', 'Ó'), ('ú', 'Ú'), ('ü', 'Ü'), ('ñ', 'Ñ')]

/-- Python `str.upper()` on the modelled alphabet: ASCII lowercase letters map
to their uppercase forms, the accented letters map through `accentUpper`, and
every other character is fixed. -/
def pyUpper (c : Char) : Char :=
  if 97 ≤ c.toNat ∧ c.toNat ≤ 122 then Char.ofNat (c.toNat - 32)
  else
    match accentUpper.find? (fun p => p.1 == c) with
    | some p => p.2
    | none => c

/-- ASCII base letters of the accented letters: the NFKD canonical
decomposition is base letter followed by a combining mark, and the combining
mark is then dropped by `encode("ascii", "ignore")`. -/
def nfkdDecomp : List (Char × Char) :=
  [('Á', 'A'), ('É', 'E'), ('Í', 'I'), ('Ó', 'O'), ('Ú', 'U'), ('Ü', 'U'), ('Ñ', 'N'),
   ('á', 'a'), ('é', 'e'), ('í', 'i'), ('ó', 'o'), ('ú', 'u'), ('ü', 'u'), ('ñ', 'n')]

/-- One character through
`unicodedata.normalize("NFKD", s).encode("ascii", "ignore")`: ASCII code
points pass through unchanged, the accented letters decompose to their base
letter, and any other non-ASCII code point is dropped entirely. -/
def nfkdAscii (c : Char) : List Char :=
  if c.toNat < 128 then [c]
  else
    match nfkdDecomp.find? (fun p => p.1 == c) with
    | some p => [p.2]
    | none => []

/-- Python `str.strip()`: drop whitespace from both ends. -/
def pyStrip (l : List Char) : List Char :=
  ((l.dropWhile pyIsSpace).reverse.dropWhile pyIsSpace).reverse

/-- `_norm` from src/routes/main.py on a present (non-NaN) value:
`str(s).strip().upper()` then NFKD normalisation and ascii-ignore encoding. -/
def _norm (s : List Char) : List Char :=
  ((pyStrip s).map pyUpper).flatMap nfkdAscii

/-- `_norm` including the `pd.isna` guard: a missing value maps to the empty
string, a present value goes through the text pipeline. -/
def normNa (s : Option (List Char)) : List Char :=
  match s with
  | none => []
  | some s => _norm s

/-- The per-character action of `_norm` after stripping. -/
def normChar (c : Char) : List Char :=
  nfkdAscii (pyUpper c)

theorem norm_eq_flatMap_normChar (s : List Char) :
    _norm s = (pyStrip s).flatMap normChar := by
  unfold _norm normChar
  induction pyStrip s with
  | nil => rfl
  | cons c l ih => simp [List.flatMap_cons, ih]

/-- The case/diacritic equivalence classes of the modelled alphabet: each
class holds one base letter in both cases together with its accented
variants in both cases.  Characters outside every class are equivalent only
to themselves. -/
def letterClasses : List (List Char) :=
  [['a','A','á','Á'], ['b','B'], ['c','C'], ['d','D'], ['e','E','é','É'],
   ['f','F'], ['g','G'], ['h','H'], ['i','I','í','Í'], ['j','J'], ['k','K'],
   ['l','L'], ['m','M'], ['n','N','ñ','Ñ'], ['o','O','ó','Ó'], ['p','P'],
   ['q','Q'], ['r','R'], ['s','S'], ['t','T'], ['u','U','ú','Ú','ü','Ü'],
   ['v','V'], ['w','W'], ['x','X'], ['y','Y'], ['z','Z']]

/-- Two characters differ at most by letter case or by a diacritic. -/
def charEquiv (c d : Char) : Prop :=
  c = d ∨ ∃ cl ∈ letterClasses, c ∈ cl ∧ d ∈ cl

instance (c d : Char) : Decidable (charEquiv c d) :=
  inferInstanceAs (Decidable (c = d ∨ ∃ cl ∈ letterClasses, c ∈ cl ∧ d ∈ cl))

theorem normChar_class :
    ∀ cl ∈ letterClasses, ∀ c ∈ cl, ∀ d ∈ cl, normChar c = normChar d := by
  decide

theorem charEquiv_normChar {c d : Char} (h : charEquiv c d) : normChar c = normChar d := by
  rcases h with rfl | ⟨cl, hcl, hc, hd⟩
  · rfl
  · exact normChar_class cl hcl c hc d hd

/-- C5: for all text inputs a and b that differ only in letter case,
surrounding whitespace, or diacritics on letters — that is, whose stripped
forms are pointwise case/diacritic-equivalent — `_norm` produces the same
canonical key. -/
theorem norm_case_diacritic_invariant (a b : List Char)
    (h : List.Forall₂ charEquiv (pyStrip a) (pyStrip b)) : _norm a = _norm b := by
  rw [norm_eq_flatMap_normChar, norm_eq_flatMap_normChar]
  generalize pyStrip a = la at h ⊢
  generalize pyStrip b = lb at h ⊢
  induction h with
  | nil => rfl
  | cons hcd _ ih => simp [List.flatMap_cons, charEquiv_normChar hcd, ih]

/-- Witness for C5: the spec's own scenario, geometry name "San José" and
totals name "  SAN JOSE " canonicalize identically. -/
theorem norm_case_diacritic_invariant_witness :
    List.Forall₂ charEquiv (pyStrip "San José".toList) (pyStrip "  SAN JOSE ".toList) ∧
      _norm "San José".toList = _norm "  SAN JOSE ".toList :=
  ⟨by decide, norm_case_diacritic_invariant _ _ (by decide)⟩

/-- A character is fixed by the second pass of the pipeline: it is ASCII and
`pyUpper` leaves it unchanged. -/
def normFixed (d : Char) : Bool :=
  decide (d.toNat < 128) && pyUpper d == d

theorem normChar_fixed_small :
    ∀ n : Fin 256, ∀ d ∈ normChar (Char.ofNat n.val), normFixed d = true := by
  decide

theorem accentUpper_keys_small : ∀ p ∈ accentUpper, p.1.toNat < 256 := by decide

theorem nfkdDecomp_keys_small : ∀ p ∈ nfkdDecomp, p.1.toNat < 256 := by decide

theorem normChar_fixed (c : Char) : ∀ d ∈ normChar c, normFixed d = true := by
  by_cases h : c.toNat < 256
  · have h2 := normChar_fixed_small ⟨c.toNat, h⟩
    simpa [Char.ofNat_toNat] using h2
  · have h256 : 256 ≤ c.toNat := Nat.le_of_not_lt h
    have hup : pyUpper c = c := by
      unfold pyUpper
      rw [if_neg (by omega)]
      rw [List.find?_eq_none.mpr ?_]
      intro p hp hbeq
      have hkey := accentUpper_keys_small p hp
      have heq : p.1 = c := eq_of_beq hbeq
      subst heq
      omega
    have hnf : nfkdAscii c = [] := by
      unfold nfkdAscii
      rw [if_neg (by omega)]
      rw [List.find?_eq_none.mpr ?_]
      intro p hp hbeq
      have hkey := nfkdDecomp_keys_small p hp
      have heq : p.1 = c := eq_of_beq hbeq
      subst heq
      omega
    unfold normChar
    rw [hup, hnf]
    intro d hd
    cases hd

theorem mem_norm_fixed {s : List Char} {d : Char} (hd : d ∈ _norm s) :
    normFixed d = true := by
  unfold _norm at hd
  rcases List.mem_flatMap.1 hd with ⟨e, he, hde⟩
  rcases List.mem_map.1 he with ⟨c, _, rfl⟩
  exact normChar_fixed c d hde

theorem normFixed_upper {d : Char} (h : normFixed d = true) : pyUpper d = d := by
  unfold normFixed at h
  rw [Bool.and_eq_true] at h
  exact eq_of_beq h.2

theorem normFixed_nfkd {d : Char} (h : normFixed d = true) : nfkdAscii d = [d] := by
  unfold normFixed at h
  rw [Bool.and_eq_true] at h
  unfold nfkdAscii
  rw [if_pos (of_decide_eq_true h.1)]

theorem map_fixed (l : List Char) (h : ∀ d ∈ l, pyUpper d = d) : l.map pyUpper = l := by
  induction l with
  | nil => rfl
  | cons d l ih =>
    simp only [List.map_cons, h d (List.mem_cons_self d l), List.cons.injEq, true_and]
    exact ih fun e he => h e (List.mem_cons_of_mem _ he)

theorem flatMap_fixed (l : List Char) (h : ∀ d ∈ l, nfkdAscii d = [d]) :
    l.flatMap nfkdAscii = l := by
  induction l with
  | nil => rfl
  | cons d l ih =>
    simp only [List.flatMap_cons, h d (List.mem_cons_self d l)]
    simp only [List.singleton_append, List.cons.injEq, true_and]
    exact ih fun e he => h e (List.mem_cons_of_mem _ he)

/-- C10 counterexample: `_norm` is not idempotent on every input.  The euro
sign has no ASCII decomposition and is dropped entirely, so on the input
"€ A" the first pass leaves a leading space that only the second pass's
strip removes: `_norm "€ A" = " A"` but `_norm " A" = "A"`. -/
theorem norm_not_idempotent :
    _norm (_norm ['€', ' ', 'A']) ≠ _norm ['€', ' ', 'A'] := by decide

/-- C10 (amended): `_norm` is idempotent on every input whose canonical form
is already whitespace-trimmed — in particular on every string over ASCII and
accented Latin letters, since their canonical images are never dropped.  The
output is ASCII and fixed by `upper` and by the NFKD/ascii-ignore step, so
only a non-trimmed output (reachable only through fully-dropped code points
such as "€" next to inner whitespace) can break idempotence. -/
theorem norm_idempotent_of_trimmed (s : List Char) (h : pyStrip (_norm s) = _norm s) :
    _norm (_norm s) = _norm s := by
  show ((pyStrip (_norm s)).map pyUpper).flatMap nfkdAscii = _norm s
  rw [h]
  rw [map_fixed _ fun d hd => normFixed_upper (mem_norm_fixed hd)]
  exact flatMap_fixed _ fun d hd => normFixed_nfkd (mem_norm_fixed hd)

/-- Witness for C10 (amended): a concrete mixed-case accented input whose
canonical form is trimmed, hence idempotent. -/
theorem norm_idempotent_of_trimmed_witness :
    pyStrip (_norm "  aB ñ".toList) = _norm "  aB ñ".toList ∧
      _norm (_norm "  aB ñ".toList) = _norm "  aB ñ".toList :=
  ⟨by decide, norm_idempotent_of_trimmed _ (by decide)⟩

/-
Reconciler: section 3 of the `mapa` route.  The geometry frame keeps, per
row, the polygon and the display name ("nomb_uger", renamed REGION); the
polygon itself is opaque to the join and is modelled by an identifier.
-/

/-- A row of the boundary dataset after column selection. -/
structure RegionGeometry where
  geometry : Nat
  name : List Char
  deriving DecidableEq

/-- A raw "Total" cell as `pd.to_numeric(errors="coerce")` sees it: a missing
cell, non-numeric text, or a value parsed as a number. -/
inductive RawTotal where
  | missing
  | nonNumeric
  | num (q : ℚ)
  deriving DecidableEq

/-- A row of the totals sheet after column selection ("Región", "Total"). -/
structure TotalRow where
  name : List Char
  total : RawTotal
  deriving DecidableEq

/-- Truncation toward zero, as numpy's `astype(int)` does to a float. -/
def ratTrunc (q : ℚ) : ℤ :=
  q.num.tdiv q.den

/-- `pd.to_numeric(df_info["Total"], errors="coerce").fillna(0).astype(int)`:
a missing or unparseable value becomes NaN, is filled with 0; a parsed number
is truncated to an integer. -/
def coerceTotal : RawTotal → ℤ
  | .missing => 0
  | .nonNumeric => 0
  | .num q => ratTrunc q

/-- One row of the merged frame: the originating geometry row plus the
reconciled integer total. -/
structure ReconciledRegion where
  region : RegionGeometry
  total : ℤ
  deriving DecidableEq

/-- The totals rows whose canonical key (`REGION_NORM`) equals the
geometry's canonical key. -/
def matchRows (ts : List TotalRow) (g : RegionGeometry) : List TotalRow :=
  ts.filter fun t => _norm t.name == _norm g.name

/-- `gdf.merge(df_info[["REGION_NORM", "Total"]], on="REGION_NORM",
how="left")` followed by `fillna(0).astype(int)` on the Total column: pandas
keeps the left (geometry) order and emits one output row per matching right
(totals) row — fanning out when several totals rows share the key — or a
single NaN row, filled with 0, when no totals row matches. -/
def reconcile (gs : List RegionGeometry) (ts : List TotalRow) : List ReconciledRegion :=
  gs.flatMap fun g =>
    if (matchRows ts g).isEmpty then [⟨g, 0⟩]
    else (matchRows ts g).map fun t => ⟨g, coerceTotal t.total⟩

theorem reconcile_cons (g : RegionGeometry) (gs : List RegionGeometry) (ts : List TotalRow) :
    reconcile (g :: gs) ts =
      (if (matchRows ts g).isEmpty then [⟨g, 0⟩]
       else (matchRows ts g).map fun t => ⟨g, coerceTotal t.total⟩) ++ reconcile gs ts := by
  simp [reconcile, List.flatMap_cons]

theorem filter_key_length_le (ts : List TotalRow) (k : List Char)
    (h : (ts.map fun t => _norm t.name).Nodup) :
    (ts.filter fun t => _norm t.name == k).length ≤ 1 := by
  induction ts with
  | nil => simp
  | cons t ts ih =>
    rw [List.map_cons, List.nodup_cons] at h
    by_cases hk : (_norm t.name == k) = true
    · have hnil : (ts.filter fun t => _norm t.name == k) = [] := by
        rw [List.filter_eq_nil_iff]
        intro t' ht' hbeq
        exact h.1 (List.mem_map.2 ⟨t', ht', by rw [eq_of_beq hbeq, eq_of_beq hk]⟩)
      simp [List.filter_cons, hk, hnil]
    · rw [Bool.not_eq_true] at hk
      simp only [List.filter_cons, hk, Bool.false_eq_true, if_false]
      exact ih h.2

theorem branch_region_map (ts : List TotalRow) (g : RegionGeometry)
    (h : (ts.map fun t => _norm t.name).Nodup) :
    ((if (matchRows ts g).isEmpty then [(⟨g, 0⟩ : ReconciledRegion)]
      else (matchRows ts g).map fun t => ⟨g, coerceTotal t.total⟩).map
        fun r => r.region) = [g] := by
  have hle : (matchRows ts g).length ≤ 1 := filter_key_length_le ts (_norm g.name) h
  rcases hmr : matchRows ts g with _ | ⟨t, rest⟩
  · simp [hmr]
  · have hrest : rest = [] := by
      rw [hmr] at hle
      simpa using hle
    subst hrest
    simp [hmr]

/-- C1 (amended): provided the totals rows' canonical keys are pairwise
distinct, reconciliation produces exactly one output record per input
geometry, preserving the geometry order and never dropping or duplicating
geometries; unmatched keys are not an error.  The proviso is forced by the
counterexample: two totals rows sharing one canonical key make the pandas
left merge fan out, duplicating the matching geometry. -/
theorem reconcile_one_per_geometry (gs : List RegionGeometry) (ts : List TotalRow)
    (h : (ts.map fun t => _norm t.name).Nodup) :
    (reconcile gs ts).map (fun r => r.region) = gs := by
  induction gs with
  | nil => rfl
  | cons g gs ih =>
    rw [reconcile_cons, List.map_append, branch_region_map ts g h, ih]
    rfl

/-- Witness for C1 (amended): two geometries, distinct totals keys, one of
them unmatched; the output is exactly the two geometries in order. -/
theorem reconcile_one_per_geometry_witness :
    (([⟨['A'], .num 120⟩, ⟨['B'], .nonNumeric⟩] : List TotalRow).map
      fun t => _norm t.name).Nodup ∧
      (reconcile [⟨0, ['A']⟩, ⟨1, ['C']⟩] [⟨['A'], .num 120⟩, ⟨['B'], .nonNumeric⟩]).map
        (fun r => r.region) = [⟨0, ['A']⟩, ⟨1, ['C']⟩] :=
  ⟨by decide, reconcile_one_per_geometry _ _ (by decide)⟩

/-- C1 counterexample: with one geometry named "A" and two totals rows whose
names both canonicalize to "A", the left merge emits two output records for
the single input geometry, so the output length differs from the input
length. -/
theorem reconcile_length_counterexample :
    ¬ (reconcile [⟨0, ['A']⟩] [⟨['A'], .num 1⟩, ⟨['A'], .num 2⟩]).length =
        ([⟨0, ['A']⟩] : List RegionGeometry).length := by
  decide

/-- C3 (amended): when several totals rows canonicalize to one key, a
matching geometry receives every matching row's total, one output record per
row in row order — a left-merge fan-out — not only the later row's total:
every matching row's coerced total appears in the output. -/
theorem reconcile_fanout_all_totals (gs : List RegionGeometry) (ts : List TotalRow)
    (g : RegionGeometry) (t : TotalRow) (hg : g ∈ gs) (ht : t ∈ ts)
    (hk : _norm t.name = _norm g.name) :
    (⟨g, coerceTotal t.total⟩ : ReconciledRegion) ∈ reconcile gs ts := by
  refine List.mem_flatMap.2 ⟨g, hg, ?_⟩
  have htm : t ∈ matchRows ts g := List.mem_filter.2 ⟨ht, by simp [hk]⟩
  have hne : ¬ (matchRows ts g).isEmpty = true := by
    rcases hmm : matchRows ts g with _ | ⟨t', rest⟩
    · rw [hmm] at htm
      cases htm
    · simp
  rw [if_neg hne]
  exact List.mem_map.2 ⟨t, htm, rfl⟩

/-- Witness for C3 (amended): both duplicated rows' totals (1 and 2) occur in
the output, the earlier row's total included. -/
theorem reconcile_fanout_all_totals_witness :
    (⟨0, ['A']⟩ : RegionGeometry) ∈ ([⟨0, ['A']⟩] : List RegionGeometry) ∧
      (⟨['A'], .num 1⟩ : TotalRow) ∈ ([⟨['A'], .num 1⟩, ⟨['A'], .num 2⟩] : List TotalRow) ∧
      _norm (['A'] : List Char) = _norm (['A'] : List Char) ∧
      (⟨⟨0, ['A']⟩, 1⟩ : ReconciledRegion) ∈
        reconcile [⟨0, ['A']⟩] [⟨['A'], .num 1⟩, ⟨['A'], .num 2⟩] :=
  ⟨by decide, by decide, rfl,
    reconcile_fanout_all_totals _ _ _ ⟨['A'], .num 1⟩ (by decide) (by decide) rfl⟩

/-- C3 counterexample: the claimed last-write-wins behaviour would make the
single matching geometry receive only the later row's total 2; in fact the
merge produces two records (totals 1 and 2). -/
theorem reconcile_last_write_counterexample :
    reconcile [⟨0, ['A']⟩] [⟨['A'], .num 1⟩, ⟨['A'], .num 2⟩] ≠
      [⟨⟨0, ['A']⟩, 2⟩] := by
  decide

/-- C6: a geometry whose canonical key matches no totals row reconciles to
total 0 — the lookup does not fail, the record is present with total exactly
0, and every output record carrying that geometry has total 0. -/
theorem reconcile_unmatched_zero (gs : List RegionGeometry) (ts : List TotalRow)
    (g : RegionGeometry) (hg : g ∈ gs)
    (h : ∀ t ∈ ts, _norm t.name ≠ _norm g.name) :
    (⟨g, 0⟩ : ReconciledRegion) ∈ reconcile gs ts ∧
      ∀ r ∈ reconcile gs ts, r.region = g → r.total = 0 := by
  have hmr : matchRows ts g = [] := by
    rw [matchRows, List.filter_eq_nil_iff]
    intro t ht hbeq
    exact h t ht (eq_of_beq hbeq)
  constructor
  · refine List.mem_flatMap.2 ⟨g, hg, ?_⟩
    rw [if_pos (by rw [hmr]; rfl)]
    exact List.mem_singleton.2 rfl
  · intro r hr hreg
    rcases List.mem_flatMap.1 hr with ⟨g', hg', hrb⟩
    by_cases hne : (matchRows ts g').isEmpty = true
    · rw [if_pos hne] at hrb
      rw [List.mem_singleton.1 hrb]
    · rw [if_neg hne] at hrb
      rcases List.mem_map.1 hrb with ⟨t, htm, rfl⟩
      have hgg : g' = g := hreg
      subst hgg
      rw [hmr] at htm
      cases htm

/-- Witness for C6: the spec's scenario, a geometry "Alajuela " whose key
matches no totals row, reconciled with total 0. -/
theorem reconcile_unmatched_zero_witness :
    (⟨1, "Alajuela ".toList⟩ : RegionGeometry) ∈
        ([⟨0, "San José".toList⟩, ⟨1, "Alajuela ".toList⟩] : List RegionGeometry) ∧
      (∀ t ∈ ([⟨"SAN JOSE".toList, .num 120⟩] : List TotalRow),
        _norm t.name ≠ _norm "Alajuela ".toList) ∧
      (⟨⟨1, "Alajuela ".toList⟩, 0⟩ : ReconciledRegion) ∈
        reconcile [⟨0, "San José".toList⟩, ⟨1, "Alajuela ".toList⟩]
          [⟨"SAN JOSE".toList, .num 120⟩] :=
  ⟨by decide, by decide,
    (reconcile_unmatched_zero _ _ _ (by decide) (by decide)).1⟩

/-- C7: coercion of a raw total never errors — a non-numeric or missing value
yields 0, a parsed number is truncated to an integer, and an integral (in
particular negative) value passes through unchanged; and reconciliation
always yields a record for every geometry whatever the raw totals are, so a
coercion failure cannot abort it. -/
theorem coerceTotal_spec :
    coerceTotal .nonNumeric = 0 ∧ coerceTotal .missing = 0 ∧
      (∀ q : ℚ, coerceTotal (.num q) = ratTrunc q) ∧
      (∀ n : ℤ, coerceTotal (.num (n : ℚ)) = n) ∧
      (∀ gs ts (g : RegionGeometry), g ∈ gs →
        ∃ r ∈ reconcile gs ts, r.region = g) := by
  refine ⟨rfl, rfl, fun q => rfl, fun n => ?_, fun gs ts g hg => ?_⟩
  · show ratTrunc (n : ℚ) = n
    rw [ratTrunc, Rat.num_intCast, Rat.den_intCast]
    exact Int.tdiv_one n
  · by_cases hne : (matchRows ts g).isEmpty = true
    · exact ⟨⟨g, 0⟩,
        List.mem_flatMap.2 ⟨g, hg, by rw [if_pos hne]; exact List.mem_singleton.2 rfl⟩, rfl⟩
    · rcases hmm : matchRows ts g with _ | ⟨t, rest⟩
      · rw [hmm] at hne
        simp at hne
      · refine ⟨⟨g, coerceTotal t.total⟩, List.mem_flatMap.2 ⟨g, hg, ?_⟩, rfl⟩
        rw [if_neg hne]
        exact List.mem_map.2 ⟨t, by rw [hmm]; exact List.mem_cons_self t rest, rfl⟩

/-- Witness for C7: a negative parsed value passes through, and reconciling a
geometry against an unparseable totals row still yields its record. -/
theorem coerceTotal_spec_witness :
    coerceTotal (.num ((-3 : ℤ) : ℚ)) = -3 ∧
      ((⟨0, ['A']⟩ : RegionGeometry) ∈ ([⟨0, ['A']⟩] : List RegionGeometry) ∧
        ∃ r ∈ reconcile [⟨0, ['A']⟩] [⟨['A'], .nonNumeric⟩], r.region = ⟨0, ['A']⟩) :=
  ⟨coerceTotal_spec.2.2.2.1 (-3),
    ⟨by decide, coerceTotal_spec.2.2.2.2 _ _ _ (by decide)⟩⟩

/-
Classifier: section 5 of the `mapa` route.  `min_val`/`max_val` are the
series min and max, the `bins` list is built either from `range(min_val,
min_val + 9)` (degenerate branch) or from the linear formula with the last
entry overwritten by the maximum.
-/

/-- `int(serie.min())`: the running minimum of the total series.  On an empty
series pandas yields NaN and `int(NaN)` raises ValueError, modelled as
`none`. -/
def seriesMin (vs : List ℤ) : Option ℤ :=
  match vs with
  | [] => none
  | v :: rest => some (rest.foldl min v)

/-- `int(serie.max())`: the running maximum of the total series; `none` on an
empty series, where `int(NaN)` raises. -/
def seriesMax (vs : List ℤ) : Option ℤ :=
  match vs with
  | [] => none
  | v :: rest => some (rest.foldl max v)

/-- The `bins` computation of the `mapa` route.  Degenerate branch
(`max_val - min_val == 0`): `list(range(min_val, min_val + 9))`, nine
consecutive integers.  General branch: `bins = [min_val + int(i * step) for i
in range(8)]` with `step = (max_val - min_val) / 7`, then `bins[-1] =
max_val`.  The float product `i * step` truncated by `int` is modelled as the
exact integer floor `(i * (max_val - min_val)) / 7`; the two agree for every
`i < 7` whenever the spread is far below 2^51, double rounding being too
small to cross an integer boundary at a non-multiple of 7. -/
def buildScale (vs : List ℤ) : Option (List ℤ) :=
  match seriesMin vs, seriesMax vs with
  | some mn, some mx =>
    if mx - mn = 0 then
      some ((List.range 9).map fun i => mn + (i : ℤ))
    else
      some (((List.range 8).map fun i => mn + ((i : ℤ) * (mx - mn)) / 7).set 7 mx)
  | _, _ => none

/-- C8: building a scale from the empty series is the classifier's one
failure mode — `int(serie.min())` raises on NaN, modelled as `none` — and a
non-empty series always yields a scale. -/
theorem buildScale_empty_error :
    buildScale [] = none ∧ ∀ vs : List ℤ, vs ≠ [] → (buildScale vs).isSome = true := by
  refine ⟨rfl, fun vs hvs => ?_⟩
  rcases vs with _ | ⟨v, rest⟩
  · exact absurd rfl hvs
  · simp only [buildScale, seriesMin, seriesMax]
    split <;> rfl

/-- Witness for C8: a singleton series is non-empty and yields a scale. -/
theorem buildScale_empty_error_witness :
    ([3] : List ℤ) ≠ [] ∧ (buildScale [3]).isSome = true :=
  ⟨by decide, buildScale_empty_error.2 [3] (by decide)⟩

theorem foldl_min_const (v : ℤ) (rest : List ℤ) (h : ∀ x ∈ rest, x = v) :
    rest.foldl min v = v := by
  induction rest with
  | nil => rfl
  | cons x l ih =>
    rw [List.foldl_cons, h x (List.mem_cons_self x l), min_self]
    exact ih fun y hy => h y (List.mem_cons_of_mem _ hy)

theorem foldl_max_const (v : ℤ) (rest : List ℤ) (h : ∀ x ∈ rest, x = v) :
    rest.foldl max v = v := by
  induction rest with
  | nil => rfl
  | cons x l ih =>
    rw [List.foldl_cons, h x (List.mem_cons_self x l), max_self]
    exact ih fun y hy => h y (List.mem_cons_of_mem _ hy)

/-- C2 (amended): in the degenerate case (all classified values equal) the
boundaries are the NINE consecutive integers from the common value v to
v + 8 — `list(range(min_val, min_val + 9))` — not the eight consecutive
integers the claim states. -/
theorem buildScale_degenerate (v : ℤ) (rest : List ℤ) (h : ∀ x ∈ rest, x = v) :
    buildScale (v :: rest) =
      some [v, v + 1, v + 2, v + 3, v + 4, v + 5, v + 6, v + 7, v + 8] := by
  have hmn : rest.foldl min v = v := foldl_min_const v rest h
  have hmx : rest.foldl max v = v := foldl_max_const v rest h
  simp only [buildScale, seriesMin, seriesMax, hmn, hmx, sub_self, if_pos]
  norm_num [List.range_succ]

/-- Witness for C2 (amended): for the spec's input of three fives the code
produces the nine boundaries 5 through 13. -/
theorem buildScale_degenerate_witness :
    (∀ x ∈ ([5, 5] : List ℤ), x = 5) ∧
      buildScale [5, 5, 5] = some [5, 6, 7, 8, 9, 10, 11, 12, 13] :=
  ⟨by decide, by
    have h := buildScale_degenerate 5 [5, 5] (by decide)
    norm_num at h
    convert h using 2⟩

/-- C2 counterexample: for values [5, 5, 5] the boundaries are NOT the eight
integers 5..12 claimed (they are the nine integers 5..13: `range(min_val,
min_val + 9)` has nine elements). -/
theorem buildScale_degenerate_counterexample :
    buildScale [5, 5, 5] ≠ some [5, 6, 7, 8, 9, 10, 11, 12] := by decide

/-- C4: in the general case (max greater than min) the scale has exactly 8
boundaries; boundary i for i in 0..6 is `min + (i * (max - min)) / 7` (an
exact floor, the division's operands being non-negative), boundary 7 is
forced to the maximum, boundary 0 equals the minimum, and the boundary
sequence is non-decreasing. -/
theorem buildScale_general (v : ℤ) (rest : List ℤ) (mn mx : ℤ)
    (hmn : seriesMin (v :: rest) = some mn) (hmx : seriesMax (v :: rest) = some mx)
    (hlt : mn < mx) :
    ∃ bins, buildScale (v :: rest) = some bins ∧
      bins.length = 8 ∧
      bins.head? = some mn ∧
      bins.getLast? = some mx ∧
      (∀ i : ℕ, i < 7 → bins[i]? = some (mn + ((i : ℤ) * (mx - mn)) / 7)) ∧
      List.Chain' (· ≤ ·) bins := by
  have hmn' : rest.foldl min v = mn := by
    simpa [seriesMin] using hmn
  have hmx' : rest.foldl max v = mx := by
    simpa [seriesMax] using hmx
  refine ⟨[mn + (0 * (mx - mn)) / 7, mn + (1 * (mx - mn)) / 7, mn + (2 * (mx - mn)) / 7,
    mn + (3 * (mx - mn)) / 7, mn + (4 * (mx - mn)) / 7, mn + (5 * (mx - mn)) / 7,
    mn + (6 * (mx - mn)) / 7, mx], ?_, rfl, by norm_num, rfl, ?_, ?_⟩
  · simp only [buildScale, seriesMin, seriesMax, hmn', hmx']
    rw [if_neg (by omega)]
    norm_num [List.range_succ]
  · intro i hi
    interval_cases i <;> norm_num
  · have key : ∀ a b : ℤ, a ≤ b → mn + (a * (mx - mn)) / 7 ≤ mn + (b * (mx - mn)) / 7 := by
      intro a b hab
      have h1 : a * (mx - mn) ≤ b * (mx - mn) := by nlinarith
      have h2 := Int.ediv_le_ediv (by norm_num : (0 : ℤ) < 7) h1
      omega
    have last : mn + (6 * (mx - mn)) / 7 ≤ mx := by
      have h1 : 6 * (mx - mn) ≤ 7 * (mx - mn) := by nlinarith
      have h2 := Int.ediv_le_ediv (by norm_num : (0 : ℤ) < 7) h1
      have h3 : 7 * (mx - mn) / 7 = mx - mn := by
        rw [Int.mul_ediv_cancel_left _ (by norm_num : (7 : ℤ) ≠ 0)]
      omega
    refine List.chain'_cons.2 ⟨key 0 1 (by norm_num), ?_⟩
    refine List.chain'_cons.2 ⟨key 1 2 (by norm_num), ?_⟩
    refine List.chain'_cons.2 ⟨key 2 3 (by norm_num), ?_⟩
    refine List.chain'_cons.2 ⟨key 3 4 (by norm_num), ?_⟩
    refine List.chain'_cons.2 ⟨key 4 5 (by norm_num), ?_⟩
    refine List.chain'_cons.2 ⟨key 5 6 (by norm_num), ?_⟩
    refine List.chain'_cons.2 ⟨last, ?_⟩
    exact List.chain'_singleton mx

/-- Witness for C4: the spec's series 10..80 — boundary 0 is exactly 10,
boundary 7 exactly 80, the middle boundaries follow the floor formula, and
the sequence is non-decreasing. -/
theorem buildScale_general_witness :
    seriesMin [10, 20, 30, 40, 50, 60, 70, 80] = some 10 ∧
      seriesMax [10, 20, 30, 40, 50, 60, 70, 80] = some 80 ∧
      (10 : ℤ) < 80 ∧
      (∃ bins, buildScale [10, 20, 30, 40, 50, 60, 70, 80] = some bins ∧
        bins.length = 8 ∧
        bins.head? = some 10 ∧
        bins.getLast? = some 80 ∧
        (∀ i : ℕ, i < 7 → bins[i]? = some (10 + ((i : ℤ) * (80 - 10)) / 7)) ∧
        List.Chain' (· ≤ ·) bins) :=
  ⟨by decide, by decide, by decide,
    buildScale_general 10 [20, 30, 40, 50, 60, 70, 80] 10 80 (by decide) (by decide)
      (by decide)⟩

/-
Colour assignment.  The route hands the reconciled totals to
`branca.colormap.LinearColormap(colors=[8 fixed colours], vmin=min_val,
vmax=max_val)` and styles each polygon with `cmap(total)`.  branca is an
external library, not part of this repository, so the colour function is
modelled from the spec.
-/

/-- The fixed 8-colour palette of the route, light to dark, as RGB triples:
ffffcc, ffeda0, fed976, feb24c, fd8d3c, fc4e2a, e31a1c, bd0026. -/
def palette : List (ℚ × ℚ × ℚ) :=
  [(255, 255, 204), (255, 237, 160), (254, 217, 118), (254, 178, 76),
   (253, 141, 60), (252, 78, 42), (227, 26, 28), (189, 0, 38)]

/-- Linear interpolation between two colours, componentwise. -/
def lerpColor (a b : ℚ × ℚ × ℚ) (f : ℚ) : ℚ × ℚ × ℚ :=
  (a.1 + f * (b.1 - a.1), a.2.1 + f * (b.2.1 - a.2.1), a.2.2 + f * (b.2.2 - a.2.2))

/-- Index of the palette segment holding position x of [0, 7]. -/
def palIdx (x : ℚ) : ℕ :=
  min 6 x.floor.toNat

/-- Position x in [0, 7] interpolated across the palette: linear blend of the
two colours bounding segment `palIdx x`. -/
def interpPalette (x : ℚ) : ℚ × ℚ × ℚ :=
  lerpColor (palette.getD (palIdx x) (0, 0, 0))
    (palette.getD (palIdx x + 1) (0, 0, 0))
    (x - ((palIdx x : ℕ) : ℚ))

/-- Colour for an already-clamped value: the value's fraction of the
[min, max] range, scaled to the palette's 7 segments. -/
def colorAt (mn mx : ℤ) (vc : ℚ) : ℚ × ℚ × ℚ :=
  interpPalette ((vc - mn) / (mx - mn) * 7)

/-- Clamp the value into [min, max]. -/
def clampQ (mn mx v : ℤ) : ℚ :=
  max (mn : ℚ) (min (v : ℚ) (mx : ℚ))

/-- Modelled from the spec: `colorFor(value, scale)` is
`branca.colormap.LinearColormap` (external to the repository, only
constructed in src/routes/main.py) — a continuous linear interpolation
across the fixed ordered 8-colour palette keyed to [minValue, maxValue],
clamped to that interval for out-of-range values. -/
def colorFor (mn mx v : ℤ) : ℚ × ℚ × ℚ :=
  colorAt mn mx (clampQ mn mx v)

/-- C9: `colorFor` at the minimum is the first palette colour ffffcc =
(255, 255, 204), at the maximum the last palette colour bd0026 =
(189, 0, 38), and any value below the minimum or above the maximum clamps to
the corresponding endpoint colour rather than extrapolating. -/
theorem colorFor_endpoints (mn mx : ℤ) (hlt : mn < mx) :
    colorFor mn mx mn = (255, 255, 204) ∧
      colorFor mn mx mx = (189, 0, 38) ∧
      (∀ v : ℤ, v ≤ mn → colorFor mn mx v = colorFor mn mx mn) ∧
      (∀ v : ℤ, mx ≤ v → colorFor mn mx v = colorFor mn mx mx) := by
  have hc : (mn : ℚ) < (mx : ℚ) := by exact_mod_cast hlt
  have hne : (mx : ℚ) - (mn : ℚ) ≠ 0 := sub_ne_zero_of_ne (ne_of_gt hc)
  have hclamp_mn : clampQ mn mx mn = (mn : ℚ) := by
    unfold clampQ
    rw [min_eq_left (le_of_lt hc), max_self]
  have hclamp_mx : clampQ mn mx mx = (mx : ℚ) := by
    unfold clampQ
    rw [min_self, max_eq_right (le_of_lt hc)]
  have hmn : colorAt mn mx (mn : ℚ) = (255, 255, 204) := by
    unfold colorAt
    rw [show ((mn : ℚ) - mn) / ((mx : ℚ) - mn) * 7 = 0 by rw [sub_self, zero_div, zero_mul]]
    unfold interpPalette
    rw [show palIdx 0 = 0 from by decide]
    rw [show palette.getD 0 (0, 0, 0) = (255, 255, 204) from by decide,
      show palette.getD (0 + 1) (0, 0, 0) = (255, 237, 160) from by decide]
    unfold lerpColor
    norm_num
  have hmx : colorAt mn mx (mx : ℚ) = (189, 0, 38) := by
    unfold colorAt
    rw [show ((mx : ℚ) - mn) / ((mx : ℚ) - mn) * 7 = 7 by rw [div_self hne, one_mul]]
    unfold interpPalette
    rw [show palIdx 7 = 6 from by decide]
    rw [show palette.getD 6 (0, 0, 0) = (227, 26, 28) from by decide,
      show palette.getD (6 + 1) (0, 0, 0) = (189, 0, 38) from by decide]
    unfold lerpColor
    norm_num
  refine ⟨?_, ?_, ?_, ?_⟩
  · unfold colorFor
    rw [hclamp_mn]
    exact hmn
  · unfold colorFor
    rw [hclamp_mx]
    exact hmx
  · intro v hv
    unfold colorFor
    rw [hclamp_mn]
    rw [show clampQ mn mx v = (mn : ℚ) by
      unfold clampQ
      rw [min_eq_left (by exact_mod_cast le_trans hv (le_of_lt hlt)),
        max_eq_left (by exact_mod_cast hv)]]
  · intro v hv
    unfold colorFor
    rw [hclamp_mx]
    rw [show clampQ mn mx v = (mx : ℚ) by
      unfold clampQ
      rw [min_eq_right (by exact_mod_cast hv), max_eq_right (le_of_lt hc)]]

/-- Witness for C9: on the range [0, 7], the endpoints take the first and
last palette colours and out-of-range values clamp to them. -/
theorem colorFor_endpoints_witness :
    colorFor 0 7 0 = (255, 255, 204) ∧ colorFor 0 7 7 = (189, 0, 38) ∧
      colorFor 0 7 (-3) = colorFor 0 7 0 ∧ colorFor 0 7 10 = colorFor 0 7 7 := by
  have h := colorFor_endpoints 0 7 (by norm_num)
  exact ⟨h.1, h.2.1, h.2.2.1 (-3) (by norm_num), h.2.2.2 10 (by norm_num)⟩
